import Mathlib


/-!
Formal model of the video transcription / analysis pipeline.

The definitions below are shallow embeddings of the TypeScript sources:
`src/utils.ts` (retry wrapper, CLI parsing, the `processMatrix` orchestration
and the batch loop of `main`), `src/transcription/assemblyAI.ts` and
`src/transcription/amazonTranscribe.ts` (word-to-segment grouping and the
Amazon job-polling loop), and `src/aiService.ts` (analysis request
construction).  Effectful calls (remote services, the filesystem) are
modelled by explicit outcome functions passed as parameters; machine floats
carrying times are modelled as `Nat` since the code only copies them around.
-/

/-- A transcript segment, `interface Timestamp { start; end; text }` from
`src/utils.ts`. -/
structure Timestamp where
  start : Nat
  «end» : Nat
  text : String
deriving DecidableEq, Repr

/-! ## Retry wrapper (`retry` in `src/utils.ts`)

The loop `for (let i = 0; i < maxRetries; i++)` is modelled by structural
recursion on `remaining = maxRetries - i`.  The operation is modelled as a
function from the attempt index to its outcome.  The trace records the
result (`Except.error none` models the `throw lastError!` reached with the
variable still unassigned, possible only when `maxRetries = 0`), the number
of invocations of the operation, and the number of `delayMs` waits
performed. -/

structure RetryTrace (E T : Type) where
  result : Except (Option E) T
  calls : Nat
  waits : Nat
deriving Repr

/-- Loop body of `retry`: at loop index `i` with `remaining = maxRetries - i`
attempts left, try `op i`; on success return it; on failure record the error
and, when `i < maxRetries - 1` (that is, `0 < remaining - 1`), wait before
the next attempt. -/
def retryGo (op : Nat → Except E T) : Nat → Nat → Option E → Nat → RetryTrace E T
  | 0, i, last, waits => ⟨.error last, i, waits⟩
  | Nat.succ remaining, i, last, waits =>
    match op i with
    | .ok v => ⟨.ok v, i + 1, waits⟩
    | .error e =>
      if 0 < remaining then retryGo op remaining (i + 1) (some e) (waits + 1)
      else retryGo op remaining (i + 1) (some e) waits

/-- The `retry` wrapper of `src/utils.ts`. -/
def retry (op : Nat → Except E T) (maxRetries : Nat) : RetryTrace E T :=
  retryGo op maxRetries 0 none 0

/-- Error classification taxonomy of the spec (§4.2, §7): a backend error is
either transient or permanent. -/
inductive ErrClass
  | transient
  | permanent
deriving DecidableEq, Repr

/-- A backend error carrying the spec's transient/permanent classification. -/
structure BackendError where
  cls : ErrClass
  msg : String
deriving DecidableEq, Repr

/-- Operation that fails twice and then succeeds. -/
def retryWitnessOpSucc : Nat → Except String Nat :=
  fun j => if j < 2 then .error "boom" else .ok 7

/-- Operation that always fails. -/
def retryWitnessOpFail : Nat → Except String Nat :=
  fun _ => .error "x"

/-- Operation whose every failure carries the `permanent` classification. -/
def permanentFailOp : Nat → Except BackendError Nat :=
  fun _ => .error ⟨.permanent, "quota exceeded"⟩

/-! ## Word-to-segment grouping

`transcribeWithAssemblyAI` (`src/transcription/assemblyAI.ts`, lines 44-87)
groups the provider's word list into segments;
`convertAmazonTranscriptToTimestamps`
(`src/transcription/amazonTranscribe.ts`, lines 172-254) groups the
pronunciation/punctuation item list of an Amazon transcript. -/

/-- A word-level timing from AssemblyAI (`transcript.words` entries). -/
structure AssemblyWord where
  start : Nat
  «end» : Nat
  text : String
deriving DecidableEq, Repr

/-- The regex test `word.text?.match(/[.!?;]$/)`: the word's text ends with
one of `.`, `!`, `?`, `;`. -/
def assemblyEndsWithPunct (text : String) : Bool :=
  match text.data.getLast? with
  | some c => c = '.' || c = '!' || c = '?' || c = ';'
  | none => false

/-- Building a segment out of the collected `segmentWords`:
`{ start: segmentWords[0].start || 0, end: segmentWords[last].end || 0,
text: segmentWords.map(w => w.text).join(' ') }`. -/
def mkAssemblySegment (segmentWords : List AssemblyWord) : Timestamp :=
  { start := ((segmentWords.head?).map AssemblyWord.start).getD 0,
    «end» := ((segmentWords.getLast?).map AssemblyWord.«end»).getD 0,
    text := String.intercalate " " (segmentWords.map AssemblyWord.text) }

/-- The word loop of `transcribeWithAssemblyAI`: push the word, bump the
count, and close the segment when `wordCount >= 10` or the word ends with
punctuation; when input is exhausted, flush the pending words as a final
segment. -/
def assemblyGroupWords : List AssemblyWord → List AssemblyWord → Nat → List Timestamp
  | [], segmentWords, _ =>
    if segmentWords.isEmpty then [] else [mkAssemblySegment segmentWords]
  | word :: rest, segmentWords, wordCount =>
    let segmentWords2 := segmentWords ++ [word]
    let wordCount2 := wordCount + 1
    if 10 ≤ wordCount2 || assemblyEndsWithPunct word.text then
      mkAssemblySegment segmentWords2 :: assemblyGroupWords rest [] 0
    else
      assemblyGroupWords rest segmentWords2 wordCount2

/-- Segment construction of the AssemblyAI adapter, started from an empty
pending group. -/
def assemblyGroup (words : List AssemblyWord) : List Timestamp :=
  assemblyGroupWords words [] 0

/-- Spec-side segment-construction policy (spec §4.1), parameterized by the
boundary predicate on the last word's text and by the word-count threshold:
group consecutive words until the threshold is reached or the last word
satisfies the boundary predicate, and emit the pending group as a final
segment when input is exhausted. -/
def specSegmentPolicy (boundary : String → Bool) (threshold : Nat) :
    List AssemblyWord → List AssemblyWord → List Timestamp
  | [], pending =>
    if pending.isEmpty then [] else [mkAssemblySegment pending]
  | word :: rest, pending =>
    let group := pending ++ [word]
    if threshold ≤ group.length || boundary word.text then
      mkAssemblySegment group :: specSegmentPolicy boundary threshold rest []
    else
      specSegmentPolicy boundary threshold rest group

/-- The boundary predicate exactly as claim C5 words it: the text ends with
terminal punctuation `.`, `!` or `?` (no `;`). -/
def claimTerminalPunct (text : String) : Bool :=
  match text.data.getLast? with
  | some c => c = '.' || c = '!' || c = '?'
  | none => false

/-- An item of an Amazon Transcribe result (`transcript.results.items`):
either a pronunciation with timings or a bare punctuation mark. -/
inductive AmazonItem
  | pronunciation (start_time end_time : Nat) (content : String)
  | punctuation (content : String)
deriving DecidableEq, Repr

/-- Mutable state of the `items.forEach` loop in
`convertAmazonTranscriptToTimestamps`. -/
structure AmState where
  sentenceStart : Bool
  currentWords : List String
  currentStartTime : Nat
  currentEndTime : Nat
deriving DecidableEq, Repr

/-- `currentWords[currentWords.length - 1] += item.alternatives[0].content`,
guarded by `currentWords.length > 0`. -/
def appendPunctToLast : List String → String → List String
  | [], _ => []
  | [w], p => [w ++ p]
  | w :: rest, p => w :: appendPunctToLast rest p

/-- Handling of one item: a pronunciation updates the timing state and
appends its word; a punctuation is glued onto the last word and, if it is a
period, question mark or exclamation mark, finishes the segment. -/
def amazonItemStep (st : AmState) : AmazonItem → List Timestamp × AmState
  | .pronunciation start_time end_time content =>
    ([], { sentenceStart := false,
           currentWords := st.currentWords ++ [content],
           currentStartTime := if st.sentenceStart then start_time else st.currentStartTime,
           currentEndTime := end_time })
  | .punctuation content =>
    let words := appendPunctToLast st.currentWords content
    if content = "." || content = "?" || content = "!" then
      ([⟨st.currentStartTime, st.currentEndTime, String.intercalate " " words⟩],
       { st with currentWords := [], sentenceStart := true })
    else
      ([], { st with currentWords := words })

/-- The `currentWords.length >= 15 && !sentenceStart` check that closes a
segment on word count alone. -/
def amazonThresholdCheck (st : AmState) : List Timestamp × AmState :=
  if 15 ≤ st.currentWords.length && !st.sentenceStart then
    ([⟨st.currentStartTime, st.currentEndTime, String.intercalate " " st.currentWords⟩],
     { st with currentWords := [], sentenceStart := true })
  else ([], st)

/-- The `items.forEach` loop: per item, run the item step, then the 15-word
check, then — on the last item only — flush any remaining words as a final
segment. -/
def amazonGo : List AmazonItem → AmState → List Timestamp
  | [], _ => []
  | item :: rest, st =>
    let s1 := amazonItemStep st item
    let s2 := amazonThresholdCheck s1.2
    let out3 :=
      if rest.isEmpty && !s2.2.currentWords.isEmpty then
        [⟨s2.2.currentStartTime, s2.2.currentEndTime,
          String.intercalate " " s2.2.currentWords⟩]
      else []
    s1.1 ++ s2.1 ++ out3 ++ amazonGo rest s2.2

/-- `convertAmazonTranscriptToTimestamps`, started from the initial state
`sentenceStart = true, currentWords = [], currentStartTime = 0,
currentEndTime = 0`. -/
def convertAmazonTranscriptToTimestamps (items : List AmazonItem) : List Timestamp :=
  amazonGo items ⟨true, [], 0, 0⟩

/-! ### A common input representation for the two adapters

A stream of timed words, each optionally followed by a punctuation mark.
The AssemblyAI adapter sees punctuation glued to the word
(`punctuate: true` output); the Amazon adapter sees it as a separate
`punctuation` item. -/

/-- View of the stream as AssemblyAI word input: the mark is attached to the
end of the word's text. -/
def toAssemblyWords (stream : List (AssemblyWord × Option Char)) : List AssemblyWord :=
  stream.map (fun wp =>
    match wp.2 with
    | some c => { wp.1 with text := wp.1.text.push c }
    | none => wp.1)

/-- View of the stream as Amazon item input: each word is a pronunciation
item, each mark its own punctuation item. -/
def toAmazonItems (stream : List (AssemblyWord × Option Char)) : List AmazonItem :=
  stream.flatMap (fun wp =>
    AmazonItem.pronunciation wp.1.start wp.1.«end» wp.1.text ::
      (match wp.2 with
       | some c => [AmazonItem.punctuation (String.singleton c)]
       | none => []))

/-- The 12-word synthetic stream from the spec's segment-grouping test
(times are arbitrary word timings). -/
def helloWords : List AssemblyWord :=
  [⟨0, 1, "Hello"⟩, ⟨1, 2, "world."⟩, ⟨2, 3, "Next"⟩, ⟨3, 4, "sentence"⟩,
   ⟨4, 5, "keeps"⟩, ⟨5, 6, "going"⟩, ⟨6, 7, "and"⟩, ⟨7, 8, "going"⟩,
   ⟨8, 9, "and"⟩, ⟨9, 10, "going"⟩, ⟨10, 11, "and"⟩, ⟨11, 12, "more"⟩]

/-- A two-word stream whose first word ends with a semicolon. -/
def semicolonWords : List AssemblyWord := [⟨0, 1, "a;"⟩, ⟨1, 2, "b."⟩]

/-- Eleven plain words with no punctuation at all. -/
def elevenWordStream : List (AssemblyWord × Option Char) :=
  (List.range 11).map (fun i => (⟨i, i + 1, "go"⟩, none))

/-- Pronunciation items of a punctuation-free word run. -/
def wordItems (ws : List AssemblyWord) : List AmazonItem :=
  ws.map (fun w => AmazonItem.pronunciation w.start w.«end» w.text)

/-- End time of the last word of `ws`, or `d` when `ws` is empty. -/
def lastEndD : List AssemblyWord → Nat → Nat
  | [], d => d
  | w :: ws, _ => lastEndD ws w.«end»

/-- Attach a punctuation mark to the text of the last word of a run. -/
def attachMark : List AssemblyWord → Char → List AssemblyWord
  | [], _ => []
  | [w], c => [{ w with text := w.text.push c }]
  | w :: ws, c => w :: attachMark ws c

/-- A sentence of the common stream: a run of words followed by one
punctuation mark. -/
structure SpokenSentence where
  words : List AssemblyWord
  mark : Char
deriving Repr

/-- Stream items of one sentence: its words, the last one followed by the
mark. -/
def sentencePairs : List AssemblyWord → Char → List (AssemblyWord × Option Char)
  | [], _ => []
  | [w], c => [(w, some c)]
  | w :: ws, c => (w, none) :: sentencePairs ws c

/-- A stream made of punctuation-terminated sentences followed by a trailing
unterminated word run. -/
def sentenceStream : List SpokenSentence → List AssemblyWord → List (AssemblyWord × Option Char)
  | [], trailing => trailing.map (fun w => (w, none))
  | s :: rest, trailing => sentencePairs s.words s.mark ++ sentenceStream rest trailing

/-- A one-sentence, one-trailing-word stream for the witness. -/
def witnessSentences : List SpokenSentence :=
  [⟨[⟨0, 1, "Hello"⟩, ⟨1, 2, "world"⟩], '.'⟩]

/-- Trailing run of the witness stream. -/
def witnessTrailing : List AssemblyWord := [⟨2, 3, "Next"⟩]

/-! ## The Amazon Transcribe polling loop

`transcribeWithAmazon` (`src/transcription/amazonTranscribe.ts`, lines
75-106) polls `GetTranscriptionJob` in `while (!completed)`; a status in
`['COMPLETED','FAILED']` ends the loop (`FAILED` by throwing a plain
`Error`), any other status sleeps 5 seconds and polls again.  The loop is
modelled over the finite trace of statuses the service returns: reaching
the end of the trace means the loop is still running and about to poll
again. -/

/-- Outcome of running the polling loop against a finite status trace,
counting the polls performed. -/
inductive PollOutcome
  | completed (polls : Nat)
  | failed (polls : Nat)
  | stillPolling (polls : Nat)
deriving DecidableEq, Repr

/-- The `while (!completed)` loop over the remaining status responses. -/
def amazonPollLoop : List String → Nat → PollOutcome
  | [], polls => .stillPolling polls
  | status :: rest, polls =>
    if status = "COMPLETED" || status = "FAILED" then
      if status = "COMPLETED" then .completed (polls + 1) else .failed (polls + 1)
    else
      amazonPollLoop rest (polls + 1)

/-- Number of `GetTranscriptionJob` calls the loop performs on a trace. -/
def pollsUsed (statuses : List String) : Nat :=
  match amazonPollLoop statuses 0 with
  | .completed n => n
  | .failed n => n
  | .stillPolling n => n

/-! ## The matrix orchestration (`processMatrix` and `main` in `src/utils.ts`)

`processMatrix` extracts audio, returns early when its `includeImages`
parameter is true, extracts frames, transcribes with every configured
service (each failure caught and skipped), throws when no transcription
survived, and otherwise — unless `onlyTranscribe` — runs the three analysis
providers over every surviving transcription (each failure caught and
skipped).  Remote/filesystem effects are modelled by outcome functions;
saved files are modelled by the `Artifact` list in order of saving. -/

/-- The transcription service tags (`TranscriptionServiceType` in
`src/transcription/types.ts`): values `openai`, `amazon`, `assemblyai`,
`gemini`. -/
inductive TranscriptionServiceType
  | openai
  | amazon
  | assemblyai
  | gemini
deriving DecidableEq, Repr

/-- The three analysis providers of `AIService`. -/
inductive AIProvider
  | openai
  | anthropic
  | gemini
deriving DecidableEq, Repr

/-- `service === OPENAI_WHISPER ? 'openai' : service === AMAZON_TRANSCRIBE ?
'amazon' : 'assemblyai'` — note that the `gemini` tag also maps to
`assemblyai`. -/
def serviceShortName : TranscriptionServiceType → String
  | .openai => "openai"
  | .amazon => "amazon"
  | _ => "assemblyai"

/-- An output file produced by `processMatrix` for one video. -/
inductive Artifact
  | transcriptionJson (service : TranscriptionServiceType)
  | transcriptionRaw (service : TranscriptionServiceType)
  | analysis (provider : AIProvider) (shortName : String)
deriving DecidableEq, Repr

/-- Whether an artifact is an analysis artifact. -/
def Artifact.isAnalysis : Artifact → Bool
  | .analysis _ _ => true
  | _ => false

/-- Errors that abort `processMatrix` for one video. -/
inductive MatrixError
  | audioFailed
  | framesFailed
  | allTranscriptionFailed
deriving DecidableEq, Repr

/-- What one `processMatrix` call did: the files it saved, the transcription
services its loop attempted, and how it returned. -/
structure MatrixRun where
  artifacts : List Artifact
  attempted : List TranscriptionServiceType
  outcome : Except MatrixError Unit
deriving Repr

/-- The `for (const service of transcriptionServices)` loop: a successful
`TranscriptionManager.transcribe` stores the timestamps under the service
key (insertion order); a failure is logged and skipped. -/
def transcribeLoop (transcribe : TranscriptionServiceType → Except Unit (List Timestamp)) :
    List TranscriptionServiceType → List (TranscriptionServiceType × List Timestamp)
  | [] => []
  | s :: rest =>
    match transcribe s with
    | .ok ts => (s, ts) :: transcribeLoop transcribe rest
    | .error _ => transcribeLoop transcribe rest

/-- The three sequential analysis attempts for one stored transcription:
OpenAI, then Anthropic, then Gemini, each in its own try/catch, a success
saving `analysis_<provider>_transcribed_by_<shortName>`. -/
def analyzeEntry (analyze : AIProvider → List Timestamp → Bool → Except Unit String)
    (vpIncludeImages : Bool) (service : TranscriptionServiceType)
    (ts : List Timestamp) : List Artifact :=
  (match analyze .openai ts vpIncludeImages with
   | .ok _ => [Artifact.analysis .openai (serviceShortName service)]
   | .error _ => []) ++
  (match analyze .anthropic ts vpIncludeImages with
   | .ok _ => [Artifact.analysis .anthropic (serviceShortName service)]
   | .error _ => []) ++
  (match analyze .gemini ts vpIncludeImages with
   | .ok _ => [Artifact.analysis .gemini (serviceShortName service)]
   | .error _ => [])

/-- The `for (const [service, timestamps] of Object.entries(transcriptions))`
loop of the analysis stage. -/
def analysisLoop (analyze : AIProvider → List Timestamp → Bool → Except Unit String)
    (vpIncludeImages : Bool) :
    List (TranscriptionServiceType × List Timestamp) → List Artifact
  | [] => []
  | (s, ts) :: rest =>
    analyzeEntry analyze vpIncludeImages s ts ++ analysisLoop analyze vpIncludeImages rest

/-- `processMatrix`: audio extraction, the `if (includeImages) return` early
exit, frame extraction, the transcription loop (saving a JSON and a raw
text transcript per surviving service), the all-failed throw, and the
analysis matrix unless `onlyTranscribe`. -/
def processMatrix (audioResult framesResult : Except Unit Unit)
    (transcribe : TranscriptionServiceType → Except Unit (List Timestamp))
    (analyze : AIProvider → List Timestamp → Bool → Except Unit String)
    (transcriptionServices : List TranscriptionServiceType)
    (onlyTranscribe : Bool) (includeImages : Bool) (vpIncludeImages : Bool) : MatrixRun :=
  match audioResult with
  | .error _ => ⟨[], [], .error .audioFailed⟩
  | .ok _ =>
    if includeImages then ⟨[], [], .ok ()⟩
    else
      match framesResult with
      | .error _ => ⟨[], [], .error .framesFailed⟩
      | .ok _ =>
        let transcriptions := transcribeLoop transcribe transcriptionServices
        let transcriptArtifacts := transcriptions.flatMap
          (fun st => [Artifact.transcriptionJson st.1, Artifact.transcriptionRaw st.1])
        if transcriptions.isEmpty then
          ⟨transcriptArtifacts, transcriptionServices, .error .allTranscriptionFailed⟩
        else if onlyTranscribe then
          ⟨transcriptArtifacts, transcriptionServices, .ok ()⟩
        else
          ⟨transcriptArtifacts ++ analysisLoop analyze vpIncludeImages transcriptions,
            transcriptionServices, .ok ()⟩

/-- The per-video batch loop of `main`: each video is processed in its own
try/catch, a failure being logged before continuing with the next video. -/
def processVideos (runOne : String → Except MatrixError Unit) :
    List String → List (String × Except MatrixError Unit)
  | [] => []
  | v :: rest => (v, runOne v) :: processVideos runOne rest

/-- Transcription outcomes where only the `gemini` service succeeds. -/
def witnessTranscribe : TranscriptionServiceType → Except Unit (List Timestamp) :=
  fun s =>
    match s with
    | .gemini => .ok []
    | _ => .error ()

/-- Analysis outcomes that always succeed. -/
def witnessAnalyze : AIProvider → List Timestamp → Bool → Except Unit String :=
  fun _ _ _ => .ok "lesson"

/-! ## Analysis request construction (`AIService` in `src/aiService.ts`)

Each `analyzeWith…` method builds the request content with a ternary on
`includeImages`; the image branch reads each frame file (`imageToBase64` or
`fs.promises.readFile`) and embeds the base64 data.  The model records the
content built and the list of frame files read; the file reader is an
explicit parameter, and the serialized transcript
(`JSON.stringify(timestamps)`) an opaque string. -/

/-- One part of a multimodal message. -/
inductive MessagePart
  | text (content : String)
  | imageData (data : String)
deriving DecidableEq, Repr

/-- A request body: either a plain string or a multipart list. -/
inductive MessageContent
  | plain (content : String)
  | multipart (parts : List MessagePart)
deriving DecidableEq, Repr

/-- A built analysis request together with the frame files read while
building it. -/
structure AnalysisRequest where
  content : MessageContent
  framesRead : List String
deriving DecidableEq, Repr

/-- The `LESSON_SYSTEM_PROMPT` constant of `src/aiService.ts`. -/
def LESSON_SYSTEM_PROMPT : String :=
  "You need to create a lesson from the content that the user sends you.\nThe lesson must be generated in the SAME LANGUAGE as the transcription content (do not translate, use the original language).\nThe lesson should contain the following:\n1) 2-7 memory cards (each description must be between 40 to 150 characters)\n2) 1-3 quiz cards with varied questions\n3) 1 Open-Ended Question Card\n4) The lesson must have a title and description, which you must fill out in lessonInfo section and must reflect the overall essence of our lesson\n\nYour answer must be structured exactly in JSON format. Do not include any additional text or formatting."

/-- The user text common to the three adapters. -/
def lessonUserText (transcriptJson : String) : String :=
  "Create a lesson based on this video content:\nTranscription: " ++ transcriptJson

/-- `analyzeWithOpenAI`: with images, a multipart user message of the text
plus one `image_url` data-URL part per frame (reading each frame); without,
the plain text and no reads. -/
def analyzeWithOpenAIRequest (readFile : String → String) (transcriptJson : String)
    (frames : List String) (includeImages : Bool) : AnalysisRequest :=
  if includeImages then
    { content := .multipart (.text (lessonUserText transcriptJson) ::
        frames.map (fun frame => .imageData ("data:image/jpeg;base64," ++ readFile frame))),
      framesRead := frames }
  else
    { content := .plain (lessonUserText transcriptJson), framesRead := [] }

/-- `analyzeWithAnthropic`: image contents are built (reading frames) only
when `includeImages`; the user message is the system prompt plus the text,
plus the image parts when enabled. -/
def analyzeWithAnthropicRequest (readFile : String → String) (transcriptJson : String)
    (frames : List String) (includeImages : Bool) : AnalysisRequest :=
  let imageContents :=
    if includeImages then frames.map (fun frame => MessagePart.imageData (readFile frame))
    else []
  { content :=
      if includeImages then
        .multipart (.text (LESSON_SYSTEM_PROMPT ++ "\n\n" ++ lessonUserText transcriptJson) ::
          imageContents)
      else .plain (LESSON_SYSTEM_PROMPT ++ "\n\n" ++ lessonUserText transcriptJson),
    framesRead := if includeImages then frames else [] }

/-- `analyzeWithGemini`: the content array holds the prompt text and, when
`includeImages`, one inline-data part per frame (reading each frame). -/
def analyzeWithGeminiRequest (readFile : String → String) (transcriptJson : String)
    (frames : List String) (includeImages : Bool) : AnalysisRequest :=
  let imageContents :=
    if includeImages then frames.map (fun frame => MessagePart.imageData (readFile frame))
    else []
  { content :=
      if includeImages then
        .multipart (.text (LESSON_SYSTEM_PROMPT ++ "\n\n" ++ lessonUserText transcriptJson) ::
          imageContents)
      else
        .multipart [.text (LESSON_SYSTEM_PROMPT ++ "\n\n" ++ lessonUserText transcriptJson)],
    framesRead := if includeImages then frames else [] }

/-! ## Command-line parsing (`parseCommandLineArgs` in `src/utils.ts`) -/

/-- The returned processing options. -/
structure ProcessingOptions where
  includeImages : Bool
  onlyTranscribe : Bool
deriving DecidableEq, Repr

/-- The internal `options` object, initialized
`{ onlyTranscribe: true, images: false }`. -/
structure CliOptions where
  onlyTranscribe : Bool
  images : Bool
deriving DecidableEq, Repr

/-- One step of the `args.forEach` flag handling: `no-images` sets
`images = false`, `only-transcribe` sets `onlyTranscribe = true`, anything
else is ignored. -/
def parseArgStep (options : CliOptions) (arg : String) : CliOptions :=
  if arg = "no-images" then { options with images := false }
  else if arg = "only-transcribe" then { options with onlyTranscribe := true }
  else options

/-- `parseCommandLineArgs`: fold the flag handling over the arguments from
the initial `{ onlyTranscribe: true, images: false }` and copy the fields
into the result. -/
def parseCommandLineArgs (args : List String) : ProcessingOptions :=
  let options := args.foldl parseArgStep { onlyTranscribe := true, images := false }
  { includeImages := options.images, onlyTranscribe := options.onlyTranscribe }

/-- Unfolding: a successful attempt stops the loop with the success value. -/
theorem retryGo_succ_ok (op : Nat → Except E T) (r i : Nat) (last : Option E)
    (waits : Nat) (v : T) (h : op i = .ok v) :
    retryGo op (Nat.succ r) i last waits = ⟨.ok v, i + 1, waits⟩ := by
  simp [retryGo, h]

/-- Unfolding: a failed attempt that is not the last one waits and retries. -/
theorem retryGo_succ_err_wait (op : Nat → Except E T) (r i : Nat) (last : Option E)
    (waits : Nat) (e : E) (h : op i = .error e) (hr : 0 < r) :
    retryGo op (Nat.succ r) i last waits = retryGo op r (i + 1) (some e) (waits + 1) := by
  simp [retryGo, h, hr]

/-- Unfolding: the final failed attempt does not wait and stops the loop,
re-raising its own error. -/
theorem retryGo_succ_err_last (op : Nat → Except E T) (i : Nat) (last : Option E)
    (waits : Nat) (e : E) (h : op i = .error e) :
    retryGo op (Nat.succ 0) i last waits = ⟨.error (some e), i + 1, waits⟩ := by
  simp [retryGo, h]

/-- If attempts `i, …, i+d-1` fail and attempt `i+d` succeeds within the
budget, the loop returns the success value after `d` further calls and `d`
further waits. -/
theorem retryGo_succeeds_after (op : Nat → Except E T) (v : T) :
    ∀ (d remaining i : Nat) (last : Option E) (waits : Nat),
      d < remaining →
      (∀ j, i ≤ j → j < i + d → (op j).isOk = false) →
      op (i + d) = .ok v →
      retryGo op remaining i last waits = ⟨.ok v, i + d + 1, waits + d⟩ := by
  intro d
  induction d with
  | zero =>
    intro remaining i last waits hd _ hok
    match remaining, hd with
    | Nat.succ r, _ =>
      rw [retryGo_succ_ok op r i last waits v (by simpa using hok)]
      congr 1 <;> omega
  | succ d ih =>
    intro remaining i last waits hd hfail hok
    match remaining, hd with
    | Nat.succ r, hd =>
      have hfi : (op i).isOk = false := hfail i (le_refl i) (by omega)
      cases hopi : op i with
      | ok w => rw [hopi] at hfi; simp [Except.isOk, Except.toBool] at hfi
      | error e =>
        have hr : 0 < r := by omega
        rw [retryGo_succ_err_wait op r i last waits e hopi hr]
        have := ih r (i + 1) (some e) (waits + 1) (by omega)
          (fun j h1 h2 => hfail j (by omega) (by omega))
          (by rw [show i + 1 + d = i + (d + 1) from by omega]; exact hok)
        rw [this]
        congr 1 <;> omega

/-- If every attempt in the budget fails, the loop re-raises the error of the
final attempt after `maxRetries` calls, having waited after every failure
except the last one. -/
theorem retryGo_all_fail (op : Nat → Except E T) (e : E) :
    ∀ (remaining : Nat), ∀ (i : Nat) (last : Option E) (waits : Nat),
      0 < remaining →
      (∀ j, i ≤ j → j < i + remaining → (op j).isOk = false) →
      op (i + remaining - 1) = .error e →
      retryGo op remaining i last waits = ⟨.error (some e), i + remaining, waits + remaining - 1⟩ := by
  intro remaining
  induction remaining with
  | zero => intro i last waits h; omega
  | succ r ih =>
    intro i last waits _ hfail hlast
    rcases Nat.eq_zero_or_pos r with hr | hr
    · subst hr
      have hop : op i = .error e := by
        rw [show i = i + 1 - 1 from by omega]; exact hlast
      rw [retryGo_succ_err_last op i last waits e hop]
      congr 1 <;> omega
    · have hfi : (op i).isOk = false := hfail i (le_refl i) (by omega)
      cases hopi : op i with
      | ok w => rw [hopi] at hfi; simp [Except.isOk, Except.toBool] at hfi
      | error e0 =>
        rw [retryGo_succ_err_wait op r i last waits e0 hopi hr]
        have := ih (i + 1) (some e0) (waits + 1) hr
          (fun j h1 h2 => hfail j (by omega) (by omega))
          (by rw [show i + 1 + r - 1 = i + (r + 1) - 1 from by omega]; exact hlast)
        rw [this]
        congr 1 <;> omega

/-- C3: for every operation and every `k < maxAttempts`, failing `k` times
then succeeding returns the success value, invokes the operation exactly
`k + 1` times and waits exactly `k` times (before each re-attempt, never
after the final failure); failing `maxAttempts` times invokes it exactly
`maxAttempts` times, waits `maxAttempts - 1` times, and re-raises the last
error unmodified. -/
theorem retry_contract (op : Nat → Except E T) (maxRetries k : Nat) (v : T) (e : E)
    (hk : k < maxRetries) :
    ((∀ j, j < k → (op j).isOk = false) → op k = .ok v →
        retry op maxRetries = ⟨.ok v, k + 1, k⟩)
    ∧ ((∀ j, j < maxRetries → (op j).isOk = false) → op (maxRetries - 1) = .error e →
        retry op maxRetries = ⟨.error (some e), maxRetries, maxRetries - 1⟩) := by
  constructor
  · intro hfail hok
    have := retryGo_succeeds_after op v k maxRetries 0 none 0 hk
      (fun j h1 h2 => hfail j (by omega)) (by simpa using hok)
    simpa using this
  · intro hfail hlast
    have := retryGo_all_fail op e maxRetries 0 none 0 (by omega)
      (fun j h1 h2 => hfail j (by omega)) (by simpa using hlast)
    simpa using this

/-- Witness for C3 at concrete operations: two failures then success with
budget 4 gives 3 calls and 2 waits; three failures with budget 3 re-raises
the last error after 3 calls and 2 waits. -/
theorem retry_contract_witness :
    retry retryWitnessOpSucc 4 = ⟨.ok 7, 3, 2⟩ ∧
    retry retryWitnessOpFail 3 = ⟨.error (some "x"), 3, 2⟩ := by
  constructor
  · exact (retry_contract retryWitnessOpSucc 4 2 7 "boom" (by decide)).1 (by decide) rfl
  · exact (retry_contract retryWitnessOpFail 3 0 0 "x" (by decide)).2 (by decide) rfl

/-- C4 counterexample: an operation whose first failure is classified
`permanent` is nevertheless invoked 3 times (the full default budget), not
exactly once as the claim states. -/
theorem retry_permanent_counterexample :
    (retry permanentFailOp 3).calls = 3 ∧ ¬ (retry permanentFailOp 3).calls = 1 := by
  constructor <;> decide

/-- C4 amended: `retry` never inspects the error classification; an
operation that always fails with a `permanent`-classified error is invoked
the full `maxAttempts` times and the last error is re-raised unmodified. -/
theorem retry_ignores_permanent_classification (op : Nat → Except BackendError T)
    (maxRetries : Nat) (e : BackendError) (hpos : 0 < maxRetries)
    (hperm : e.cls = ErrClass.permanent) (hop : ∀ j, op j = .error e) :
    retry op maxRetries = ⟨.error (some e), maxRetries, maxRetries - 1⟩ := by
  have := retryGo_all_fail op e maxRetries 0 none 0 hpos
    (fun j _ _ => by rw [hop j]; rfl)
    (by rw [hop])
  simpa using this

/-- Witness for the amended C4 at a concrete permanently-failing operation. -/
theorem retry_ignores_permanent_classification_witness :
    retry permanentFailOp 3 =
      ⟨.error (some ⟨.permanent, "quota exceeded"⟩), 3, 2⟩ :=
  retry_ignores_permanent_classification permanentFailOp 3
    ⟨.permanent, "quota exceeded"⟩ (by decide) rfl (fun _ => rfl)

/-- C5 counterexample: the AssemblyAI grouping does not implement the
claim's closing condition.  On a word ending with `;` (matched by the
code's regex `[.!?;]$` but not among the claim's `.`, `!`, `?`), the code
closes the segment early while the claimed policy would keep grouping:
the code yields segments `"a;"`, `"b."` where the claim predicts
`"a; b."`. -/
theorem assembly_semicolon_counterexample :
    assemblyGroup semicolonWords ≠
        specSegmentPolicy claimTerminalPunct 10 semicolonWords [] ∧
    (assemblyGroup semicolonWords).map Timestamp.text = ["a;", "b."] ∧
    (specSegmentPolicy claimTerminalPunct 10 semicolonWords []).map Timestamp.text =
      ["a; b."] := by
  refine ⟨by decide, by decide, by decide⟩

/-- The loop of `transcribeWithAssemblyAI` is the spec's generic grouping
policy instantiated with threshold 10 and the boundary predicate
`[.!?;]$`, provided the running word count equals the size of the pending
group (as it does from the initial state). -/
theorem assemblyGroupWords_eq_specPolicy :
    ∀ (ws pending : List AssemblyWord),
      assemblyGroupWords ws pending pending.length =
        specSegmentPolicy assemblyEndsWithPunct 10 ws pending := by
  intro ws
  induction ws with
  | nil => intro pending; rfl
  | cons w rest ih =>
    intro pending
    simp only [assemblyGroupWords, specSegmentPolicy, List.length_append,
      List.length_cons, List.length_nil, Nat.zero_add]
    by_cases hcond :
        (decide (10 ≤ pending.length + 1) || assemblyEndsWithPunct w.text) = true
    · rw [if_pos hcond, if_pos hcond]
      have h0 := ih []
      simp only [List.length_nil] at h0
      rw [h0]
    · rw [if_neg hcond, if_neg hcond]
      have h1 := ih (pending ++ [w])
      simp only [List.length_append, List.length_cons, List.length_nil,
        Nat.zero_add] at h1
      exact h1

/-- C5 amended: the AssemblyAI adapter's grouping closes a segment exactly
when the 10-word threshold is reached or the last word ends with `.`, `!`,
`?` or `;` (the code's boundary set also contains the semicolon), flushing
the pending group as a final segment at end of input; on the 12-word
synthetic stream the first emitted segment is `"Hello world."`. -/
theorem assembly_grouping_amended :
    (∀ words, assemblyGroup words = specSegmentPolicy assemblyEndsWithPunct 10 words []) ∧
    ((assemblyGroup helloWords).map Timestamp.text).head? = some "Hello world." := by
  constructor
  · intro words
    have h := assemblyGroupWords_eq_specPolicy words []
    simpa [assemblyGroup] using h
  · decide

/-- C6 counterexample: the two adapters do not apply the same grouping
policy.  On a stream of eleven plain words (no punctuation), the AssemblyAI
adapter closes a segment at its 10-word threshold and emits two segments,
while the Amazon adapter (threshold 15) emits a single segment. -/
theorem grouping_equivalence_counterexample :
    assemblyGroup (toAssemblyWords elevenWordStream) ≠
        convertAmazonTranscriptToTimestamps (toAmazonItems elevenWordStream) ∧
    (assemblyGroup (toAssemblyWords elevenWordStream)).length = 2 ∧
    (convertAmazonTranscriptToTimestamps (toAmazonItems elevenWordStream)).length = 1 := by
  refine ⟨by decide, by decide, by decide⟩

/-- Pushing a character onto a string appends it to the underlying list. -/
theorem string_push_eq_append (s : String) (c : Char) :
    s.push c = s ++ String.singleton c := by
  cases s with
  | mk data => rfl

/-- A text ending in an attached mark from the code's boundary set is a
boundary word for the AssemblyAI grouping. -/
theorem assemblyEndsWithPunct_push (s : String) (c : Char)
    (hc : c = '.' ∨ c = '!' ∨ c = '?' ∨ c = ';') :
    assemblyEndsWithPunct (s.push c) = true := by
  cases s with
  | mk data =>
    have hdata : (String.push ⟨data⟩ c).data = data ++ [c] := by
      simp [String.push]
    simp only [assemblyEndsWithPunct, hdata, List.getLast?_concat]
    rcases hc with h | h | h | h <;> simp [h]

/-- A pronunciation item that is not the last item and keeps the word count
below 15 just accumulates state. -/
theorem amazonGo_pron_more (a b : Nat) (t : String) (rest : List AmazonItem) (st : AmState)
    (hlen : st.currentWords.length + 1 < 15) (hrest : rest ≠ []) :
    amazonGo (.pronunciation a b t :: rest) st =
      amazonGo rest ⟨false, st.currentWords ++ [t],
        if st.sentenceStart then a else st.currentStartTime, b⟩ := by
  have hempty : rest.isEmpty = false := by
    cases rest with
    | nil => exact absurd rfl hrest
    | cons x xs => rfl
  have h14 : ¬ (14 ≤ st.currentWords.length) := by omega
  simp [amazonGo, amazonItemStep, amazonThresholdCheck, hempty, h14]

/-- A pronunciation item that is the last item (and keeps the word count
below 15) accumulates and then flushes the pending words as the final
segment. -/
theorem amazonGo_pron_last (a b : Nat) (t : String) (st : AmState)
    (hlen : st.currentWords.length + 1 < 15) :
    amazonGo [.pronunciation a b t] st =
      [⟨if st.sentenceStart then a else st.currentStartTime, b,
        String.intercalate " " (st.currentWords ++ [t])⟩] := by
  have h14 : ¬ (14 ≤ st.currentWords.length) := by omega
  simp [amazonGo, amazonItemStep, amazonThresholdCheck, h14]

/-- A sentence-final punctuation item emits the pending segment (with the
mark glued onto the last word) and resets the word state. -/
theorem amazonGo_punct_close (c : String) (rest : List AmazonItem) (st : AmState)
    (hc : c = "." ∨ c = "?" ∨ c = "!") :
    amazonGo (.punctuation c :: rest) st =
      ⟨st.currentStartTime, st.currentEndTime,
        String.intercalate " " (appendPunctToLast st.currentWords c)⟩ ::
      amazonGo rest ⟨true, [], st.currentStartTime, st.currentEndTime⟩ := by
  have hcb : (c = "." || c = "?" || c = "!") = true := by
    rcases hc with h | h | h <;> simp [h]
  simp [amazonGo, amazonItemStep, amazonThresholdCheck, hcb]

/-- Accumulating a run of pronunciation items mid-stream just extends the
word state (no segment is emitted while the 15-word threshold is not hit). -/
theorem amazonGo_words_accum :
    ∀ (ws : List AssemblyWord) (st : AmState) (rest : List AmazonItem),
      st.sentenceStart = false →
      st.currentWords.length + ws.length < 15 →
      rest ≠ [] →
      amazonGo (wordItems ws ++ rest) st =
        amazonGo rest ⟨false, st.currentWords ++ ws.map AssemblyWord.text,
          st.currentStartTime, lastEndD ws st.currentEndTime⟩ := by
  intro ws
  induction ws with
  | nil =>
    intro st rest hss hlen hrest
    cases st with
    | mk ss cw cs ce =>
      simp only at hss
      subst hss
      simp [wordItems, lastEndD]
  | cons w ws ih =>
    intro st rest hss hlen hrest
    have hmore : wordItems ws ++ rest ≠ [] := by
      cases ws with
      | nil => simpa [wordItems] using hrest
      | cons x xs => simp [wordItems]
    have hstep := amazonGo_pron_more w.start w.«end» w.text (wordItems ws ++ rest) st
      (by simp at hlen ⊢; omega) hmore
    simp only [wordItems, List.map_cons, List.cons_append] at hstep ⊢
    rw [hstep]
    rw [hss]
    simp only [Bool.false_eq_true, if_false]
    have := ih ⟨false, st.currentWords ++ [w.text], st.currentStartTime, w.«end»⟩ rest
      rfl (by simp at hlen ⊢; omega) hrest
    simp only [wordItems] at this
    rw [this]
    simp [lastEndD, List.append_assoc]

/-- A run of pronunciation items ending the stream accumulates and then the
last item flushes the words as the final segment. -/
theorem amazonGo_words_flush :
    ∀ (ws : List AssemblyWord) (st : AmState),
      ws ≠ [] →
      st.sentenceStart = false →
      st.currentWords.length + ws.length < 15 →
      amazonGo (wordItems ws) st =
        [⟨st.currentStartTime, lastEndD ws st.currentEndTime,
          String.intercalate " " (st.currentWords ++ ws.map AssemblyWord.text)⟩] := by
  intro ws
  induction ws with
  | nil => intro st h; exact absurd rfl h
  | cons w ws ih =>
    intro st _ hss hlen
    cases ws with
    | nil =>
      have := amazonGo_pron_last w.start w.«end» w.text st (by simp at hlen ⊢; omega)
      simp only [wordItems, List.map_cons, List.map_nil]
      rw [this, hss]
      simp [lastEndD]
    | cons x xs =>
      have hmore : wordItems (x :: xs) ≠ [] := by simp [wordItems]
      have hstep := amazonGo_pron_more w.start w.«end» w.text (wordItems (x :: xs)) st
        (by simp at hlen ⊢; omega) hmore
      simp only [wordItems, List.map_cons, List.cons_append] at hstep ⊢
      rw [hstep, hss]
      simp only [Bool.false_eq_true, if_false]
      have := ih ⟨false, st.currentWords ++ [w.text], st.currentStartTime, w.«end»⟩
        (by simp) rfl (by simp at hlen ⊢; omega)
      simp only [wordItems, List.map_cons] at this
      rw [this]
      simp [lastEndD, List.append_assoc]

/-- A whole sentence processed from a fresh Amazon state: accumulate its
words, then the punctuation item closes the segment and resets the state. -/
theorem amazonGo_fresh_sentence (w : AssemblyWord) (ws : List AssemblyWord) (c : String)
    (rest : List AmazonItem) (cs ce : Nat)
    (hlen : ws.length + 1 < 15) (hc : c = "." ∨ c = "?" ∨ c = "!") :
    amazonGo (wordItems (w :: ws) ++ (AmazonItem.punctuation c :: rest)) ⟨true, [], cs, ce⟩ =
      ⟨w.start, lastEndD ws w.«end»,
        String.intercalate " " (appendPunctToLast (w.text :: ws.map AssemblyWord.text) c)⟩ ::
      amazonGo rest ⟨true, [], w.start, lastEndD ws w.«end»⟩ := by
  have hne : wordItems ws ++ (AmazonItem.punctuation c :: rest) ≠ [] := by
    intro h
    rcases List.append_eq_nil.mp h with ⟨_, h2⟩
    exact List.cons_ne_nil _ _ h2
  have hstep := amazonGo_pron_more w.start w.«end» w.text
    (wordItems ws ++ (AmazonItem.punctuation c :: rest)) ⟨true, [], cs, ce⟩ (by simp) hne
  simp only [wordItems, List.map_cons, List.cons_append] at hstep ⊢
  rw [hstep]
  simp only [if_true, List.nil_append]
  have haccum := amazonGo_words_accum ws ⟨false, [w.text], w.start, w.«end»⟩
    (AmazonItem.punctuation c :: rest) rfl (by simpa using by omega)
    (List.cons_ne_nil _ _)
  simp only [wordItems] at haccum
  rw [haccum]
  have hclose := amazonGo_punct_close c rest
    ⟨false, [w.text] ++ ws.map AssemblyWord.text, w.start, lastEndD ws w.«end»⟩ hc
  simp only at hclose
  rw [hclose]
  simp

/-- A trailing word run processed from a fresh Amazon state: the final item
flushes all words as one segment. -/
theorem amazonGo_fresh_flush (w : AssemblyWord) (ws : List AssemblyWord) (cs ce : Nat)
    (hlen : ws.length + 1 < 15) :
    amazonGo (wordItems (w :: ws)) ⟨true, [], cs, ce⟩ =
      [⟨w.start, lastEndD ws w.«end»,
        String.intercalate " " (w.text :: ws.map AssemblyWord.text)⟩] := by
  cases ws with
  | nil =>
    have := amazonGo_pron_last w.start w.«end» w.text ⟨true, [], cs, ce⟩ (by simp)
    simp only [wordItems, List.map_cons, List.map_nil] at this ⊢
    rw [this]
    simp [lastEndD]
  | cons x xs =>
    have hne : wordItems (x :: xs) ≠ [] := by simp [wordItems]
    have hstep := amazonGo_pron_more w.start w.«end» w.text (wordItems (x :: xs))
      ⟨true, [], cs, ce⟩ (by simp) hne
    simp only [wordItems, List.map_cons, List.cons_append] at hstep ⊢
    rw [hstep]
    simp only [if_true, List.nil_append]
    have hflush := amazonGo_words_flush (x :: xs) ⟨false, [w.text], w.start, w.«end»⟩
      (List.cons_ne_nil _ _) rfl (by simp at hlen ⊢; omega)
    simp only [wordItems, List.map_cons] at hflush
    rw [hflush]
    simp [lastEndD]

/-- The flush case of the spec policy on exhausted input with a non-empty
pending group. -/
theorem specPolicy_nil_flush (pending : List AssemblyWord) (h : pending ≠ []) :
    specSegmentPolicy assemblyEndsWithPunct 10 [] pending = [mkAssemblySegment pending] := by
  have hempty : pending.isEmpty = false := by
    cases pending with
    | nil => exact absurd rfl h
    | cons x xs => rfl
  simp [specSegmentPolicy, hempty]

/-- Non-boundary words below the threshold are accumulated into the pending
group without emitting a segment. -/
theorem specPolicy_accumulate :
    ∀ (ws rest pending : List AssemblyWord),
      (∀ w ∈ ws, assemblyEndsWithPunct w.text = false) →
      pending.length + ws.length < 10 →
      specSegmentPolicy assemblyEndsWithPunct 10 (ws ++ rest) pending =
        specSegmentPolicy assemblyEndsWithPunct 10 rest (pending ++ ws) := by
  intro ws
  induction ws with
  | nil => intro rest pending _ _; simp
  | cons w ws ih =>
    intro rest pending hb hlen
    simp only [List.length_cons] at hlen
    have hw : assemblyEndsWithPunct w.text = false := hb w (by simp)
    simp only [List.cons_append, specSegmentPolicy]
    have hcond :
        ¬ ((decide (10 ≤ (pending ++ [w]).length) || assemblyEndsWithPunct w.text) = true) := by
      simp [hw, List.length_append]
      omega
    rw [if_neg hcond]
    simp only [List.append_eq_has_append]
    have := ih rest (pending ++ [w])
      (fun x hx => hb x (by simp [hx]))
      (by simp [List.length_append]; omega)
    rw [this, List.append_assoc]
    rfl

/-- Processing an attached-mark sentence from the spec policy: the words
accumulate and the marked last word closes the segment. -/
theorem specPolicy_attach_sentence :
    ∀ (ws pending : List AssemblyWord) (c : Char) (rest : List AssemblyWord),
      ws ≠ [] →
      (∀ x ∈ ws, assemblyEndsWithPunct x.text = false) →
      pending.length + ws.length ≤ 9 →
      (c = '.' ∨ c = '!' ∨ c = '?' ∨ c = ';') →
      specSegmentPolicy assemblyEndsWithPunct 10 (attachMark ws c ++ rest) pending =
        mkAssemblySegment (pending ++ attachMark ws c) ::
          specSegmentPolicy assemblyEndsWithPunct 10 rest [] := by
  intro ws
  induction ws with
  | nil => intro pending c rest h; exact absurd rfl h
  | cons w ws ih =>
    intro pending c rest _ hb hlen hc
    cases ws with
    | nil =>
      simp only [attachMark, List.cons_append, List.nil_append, specSegmentPolicy]
      have hbd : assemblyEndsWithPunct (w.text.push c) = true :=
        assemblyEndsWithPunct_push w.text c hc
      have hcond :
          ((decide (10 ≤ (pending ++ [{ w with text := w.text.push c }]).length) ||
              assemblyEndsWithPunct ({ w with text := w.text.push c}).text) = true) := by
        simp [hbd]
      rw [if_pos hcond]
      rfl
    | cons x xs =>
      have heq : attachMark (w :: x :: xs) c = w :: attachMark (x :: xs) c := rfl
      rw [heq]
      simp only [List.cons_append, specSegmentPolicy]
      have hw : assemblyEndsWithPunct w.text = false := hb w (by simp)
      simp only [List.length_cons] at hlen
      have hcond :
          ¬ ((decide (10 ≤ (pending ++ [w]).length) || assemblyEndsWithPunct w.text) = true) := by
        simp [hw, List.length_append]
        omega
      rw [if_neg hcond]
      simp only [List.append_eq_has_append]
      have hrec := ih (pending ++ [w]) c rest (List.cons_ne_nil _ _)
        (fun y hy => hb y (by simp [hy]))
        (by simp [List.length_append]; omega) hc
      rw [hrec, List.append_assoc]
      rfl

/-- The two stream views distribute over stream concatenation. -/
theorem toAssemblyWords_append (a b : List (AssemblyWord × Option Char)) :
    toAssemblyWords (a ++ b) = toAssemblyWords a ++ toAssemblyWords b := by
  simp [toAssemblyWords]

/-- The Amazon item view distributes over stream concatenation. -/
theorem toAmazonItems_append (a b : List (AssemblyWord × Option Char)) :
    toAmazonItems (a ++ b) = toAmazonItems a ++ toAmazonItems b := by
  simp [toAmazonItems]

/-- Assembly view of a sentence: the mark is attached to the last word. -/
theorem toAssemblyWords_sentencePairs :
    ∀ (ws : List AssemblyWord) (c : Char),
      toAssemblyWords (sentencePairs ws c) = attachMark ws c := by
  intro ws
  induction ws with
  | nil => intro c; rfl
  | cons w ws ih =>
    intro c
    cases ws with
    | nil => rfl
    | cons x xs =>
      show toAssemblyWords ((w, (none : Option Char)) :: sentencePairs (x :: xs) c) =
        w :: attachMark (x :: xs) c
      rw [show toAssemblyWords ((w, (none : Option Char)) :: sentencePairs (x :: xs) c)
          = w :: toAssemblyWords (sentencePairs (x :: xs) c) from rfl]
      rw [ih c]

/-- Amazon view of a sentence: its words as pronunciation items, then one
punctuation item. -/
theorem toAmazonItems_sentencePairs :
    ∀ (ws : List AssemblyWord) (c : Char),
      ws ≠ [] →
      toAmazonItems (sentencePairs ws c) =
        wordItems ws ++ [AmazonItem.punctuation (String.singleton c)] := by
  intro ws
  induction ws with
  | nil => intro c h; exact absurd rfl h
  | cons w ws ih =>
    intro c _
    cases ws with
    | nil => rfl
    | cons x xs =>
      show toAmazonItems ((w, (none : Option Char)) :: sentencePairs (x :: xs) c) = _
      rw [show toAmazonItems ((w, (none : Option Char)) :: sentencePairs (x :: xs) c)
          = AmazonItem.pronunciation w.start w.«end» w.text ::
              toAmazonItems (sentencePairs (x :: xs) c) from rfl]
      rw [ih c (List.cons_ne_nil _ _)]
      rfl

/-- Assembly view of the trailing run: the words themselves. -/
theorem toAssemblyWords_trailing (ws : List AssemblyWord) :
    toAssemblyWords (ws.map (fun w => (w, none))) = ws := by
  induction ws with
  | nil => rfl
  | cons w ws ih =>
    show w :: toAssemblyWords (ws.map (fun w => (w, none))) = w :: ws
    rw [ih]

/-- Amazon view of the trailing run: pronunciation items only. -/
theorem toAmazonItems_trailing (ws : List AssemblyWord) :
    toAmazonItems (ws.map (fun w => (w, none))) = wordItems ws := by
  induction ws with
  | nil => rfl
  | cons w ws ih =>
    show AmazonItem.pronunciation w.start w.«end» w.text ::
        toAmazonItems (ws.map (fun w => (w, none))) = _
    rw [ih]
    rfl

/-- The default-carrying last end time agrees with `getLast?`. -/
theorem getLast?_end_eq_lastEndD :
    ∀ (ws : List AssemblyWord) (w : AssemblyWord),
      (((w :: ws).getLast?).map AssemblyWord.«end»).getD 0 = lastEndD ws w.«end» := by
  intro ws
  induction ws with
  | nil => intro w; rfl
  | cons x xs ih =>
    intro w
    rw [List.getLast?_cons_cons]
    exact ih x

/-- Explicit form of an assembly segment built from a non-empty word list. -/
theorem mkAssemblySegment_cons (w : AssemblyWord) (ws : List AssemblyWord) :
    mkAssemblySegment (w :: ws) =
      ⟨w.start, lastEndD ws w.«end»,
        String.intercalate " " (w.text :: ws.map AssemblyWord.text)⟩ := by
  have h2 := getLast?_end_eq_lastEndD ws w
  simp [mkAssemblySegment, h2]

/-- Attaching a mark does not change the last end time. -/
theorem lastEndD_attachMark :
    ∀ (ws : List AssemblyWord) (c : Char) (d : Nat),
      lastEndD (attachMark ws c) d = lastEndD ws d := by
  intro ws
  induction ws with
  | nil => intro c d; rfl
  | cons w ws ih =>
    intro c d
    cases ws with
    | nil => rfl
    | cons x xs =>
      show lastEndD (w :: attachMark (x :: xs) c) d = lastEndD (w :: x :: xs) d
      show lastEndD (attachMark (x :: xs) c) w.«end» = lastEndD (x :: xs) w.«end»
      exact ih c w.«end»

/-- Texts of an attached-mark run: the mark is appended to the last text. -/
theorem map_text_attachMark :
    ∀ (ws : List AssemblyWord) (w : AssemblyWord) (c : Char),
      (attachMark (w :: ws) c).map AssemblyWord.text =
        appendPunctToLast ((w :: ws).map AssemblyWord.text) (String.singleton c) := by
  intro ws
  induction ws with
  | nil => intro w c; simp [attachMark, appendPunctToLast, string_push_eq_append]
  | cons x xs ih =>
    intro w c
    show (w :: attachMark (x :: xs) c).map AssemblyWord.text = _
    rw [List.map_cons, ih x c]
    rfl

/-- The segment an attached-mark sentence produces, in the same form the
Amazon adapter produces it. -/
theorem mkAssemblySegment_attachMark (w : AssemblyWord) (ws : List AssemblyWord) (c : Char) :
    mkAssemblySegment (attachMark (w :: ws) c) =
      ⟨w.start, lastEndD ws w.«end»,
        String.intercalate " "
          (appendPunctToLast (w.text :: ws.map AssemblyWord.text) (String.singleton c))⟩ := by
  cases ws with
  | nil =>
    simp [attachMark, mkAssemblySegment, appendPunctToLast, lastEndD, string_push_eq_append]
  | cons x xs =>
    rw [show attachMark (w :: x :: xs) c = w :: attachMark (x :: xs) c from rfl]
    rw [mkAssemblySegment_cons]
    rw [lastEndD_attachMark, map_text_attachMark]
    rfl

/-- The singleton string of a sentence-terminal mark is one of the Amazon
closing strings. -/
theorem singleton_mark_cases (c : Char) (hc : c = '.' ∨ c = '!' ∨ c = '?') :
    String.singleton c = "." ∨ String.singleton c = "?" ∨ String.singleton c = "!" := by
  rcases hc with h | h | h
  · exact Or.inl (by rw [h]; decide)
  · exact Or.inr (Or.inr (by rw [h]; decide))
  · exact Or.inr (Or.inl (by rw [h]; decide))

/-- C6 amended: the two adapters' groupings agree on streams decomposable
into sentences of at most 9 words, each terminated by `.`, `!` or `?`,
followed by a trailing unterminated run of at most 9 words, where no word's
own text already ends in boundary punctuation; in general the policies
differ (thresholds 10 vs 15, and the AssemblyAI boundary set also contains
`;`). -/
theorem grouping_policies_agree_on_sentences
    (sentences : List SpokenSentence) (trailing : List AssemblyWord)
    (hs : ∀ s ∈ sentences, s.words ≠ [] ∧ s.words.length ≤ 9 ∧
      (∀ w ∈ s.words, assemblyEndsWithPunct w.text = false) ∧
      (s.mark = '.' ∨ s.mark = '!' ∨ s.mark = '?'))
    (htl : trailing.length ≤ 9)
    (htb : ∀ w ∈ trailing, assemblyEndsWithPunct w.text = false) :
    assemblyGroup (toAssemblyWords (sentenceStream sentences trailing)) =
      convertAmazonTranscriptToTimestamps (toAmazonItems (sentenceStream sentences trailing)) := by
  have key : ∀ (ss : List SpokenSentence) (trailing : List AssemblyWord),
      (∀ s ∈ ss, s.words ≠ [] ∧ s.words.length ≤ 9 ∧
        (∀ w ∈ s.words, assemblyEndsWithPunct w.text = false) ∧
        (s.mark = '.' ∨ s.mark = '!' ∨ s.mark = '?')) →
      trailing.length ≤ 9 →
      (∀ w ∈ trailing, assemblyEndsWithPunct w.text = false) →
      ∀ (cs ce : Nat),
      specSegmentPolicy assemblyEndsWithPunct 10
          (toAssemblyWords (sentenceStream ss trailing)) [] =
        amazonGo (toAmazonItems (sentenceStream ss trailing)) ⟨true, [], cs, ce⟩ := by
    intro ss
    induction ss with
    | nil =>
      intro trailing _ htl htb cs ce
      show specSegmentPolicy assemblyEndsWithPunct 10
          (toAssemblyWords (trailing.map (fun w => (w, none)))) [] =
        amazonGo (toAmazonItems (trailing.map (fun w => (w, none)))) ⟨true, [], cs, ce⟩
      rw [toAssemblyWords_trailing, toAmazonItems_trailing]
      cases trailing with
      | nil => rfl
      | cons w tl =>
        have hacc := specPolicy_accumulate (w :: tl) [] [] htb
          (by simp at htl ⊢; omega)
        rw [List.append_nil] at hacc
        rw [hacc]
        rw [specPolicy_nil_flush (([] : List AssemblyWord) ++ w :: tl) (by simp)]
        rw [List.nil_append]
        rw [mkAssemblySegment_cons]
        rw [amazonGo_fresh_flush w tl cs ce (by simp at htl ⊢; omega)]
    | cons s ss ih =>
      intro trailing hss htl htb cs ce
      obtain ⟨hne, hlen9, hwb, hmark⟩ := hss s (by simp)
      obtain ⟨w, ws, hwords⟩ : ∃ w ws, s.words = w :: ws := by
        cases hw : s.words with
        | nil => exact absurd hw hne
        | cons a b => exact ⟨a, b, rfl⟩
      show specSegmentPolicy assemblyEndsWithPunct 10
          (toAssemblyWords (sentencePairs s.words s.mark ++ sentenceStream ss trailing)) [] =
        amazonGo (toAmazonItems (sentencePairs s.words s.mark ++ sentenceStream ss trailing))
          ⟨true, [], cs, ce⟩
      rw [toAssemblyWords_append, toAmazonItems_append,
        toAssemblyWords_sentencePairs, toAmazonItems_sentencePairs s.words s.mark hne]
      rw [hwords] at hwb hlen9 ⊢
      rw [specPolicy_attach_sentence (w :: ws) [] s.mark
        (toAssemblyWords (sentenceStream ss trailing)) (List.cons_ne_nil _ _) hwb
        (by simp at hlen9 ⊢; omega)
        (by rcases hmark with h | h | h
            · exact Or.inl h
            · exact Or.inr (Or.inl h)
            · exact Or.inr (Or.inr (Or.inl h)))]
      rw [List.append_assoc]
      rw [show ([AmazonItem.punctuation (String.singleton s.mark)] ++
            toAmazonItems (sentenceStream ss trailing)) =
          (AmazonItem.punctuation (String.singleton s.mark) ::
            toAmazonItems (sentenceStream ss trailing)) from rfl]
      rw [amazonGo_fresh_sentence w ws (String.singleton s.mark)
        (toAmazonItems (sentenceStream ss trailing)) cs ce
        (by simp at hlen9 ⊢; omega) (singleton_mark_cases s.mark hmark)]
      rw [List.nil_append, mkAssemblySegment_attachMark]
      congr 1
      exact ih trailing (fun x hx => hss x (List.mem_cons_of_mem _ hx)) htl htb
        w.start (lastEndD ws w.«end»)
  have hb : assemblyGroup (toAssemblyWords (sentenceStream sentences trailing)) =
      specSegmentPolicy assemblyEndsWithPunct 10
        (toAssemblyWords (sentenceStream sentences trailing)) [] :=
    assemblyGroupWords_eq_specPolicy _ []
  rw [hb]
  exact key sentences trailing hs htl htb 0 0

/-- Witness for the amended C6 at a concrete sentence-structured stream. -/
theorem grouping_policies_agree_on_sentences_witness :
    assemblyGroup (toAssemblyWords (sentenceStream witnessSentences witnessTrailing)) =
      convertAmazonTranscriptToTimestamps
        (toAmazonItems (sentenceStream witnessSentences witnessTrailing)) :=
  grouping_policies_agree_on_sentences witnessSentences witnessTrailing
    (by decide) (by decide) (by decide)

/-- On a trace with no terminal status the loop consumes every response and
is still polling. -/
theorem amazonPollLoop_no_terminal :
    ∀ (statuses : List String) (n : Nat),
      (∀ s ∈ statuses, s ≠ "COMPLETED" ∧ s ≠ "FAILED") →
      amazonPollLoop statuses n = .stillPolling (n + statuses.length) := by
  intro statuses
  induction statuses with
  | nil => intro n _; rfl
  | cons s rest ih =>
    intro n h
    obtain ⟨h1, h2⟩ := h s (by simp)
    simp only [amazonPollLoop, h1, h2]
    rw [if_neg (by simp [h1, h2])]
    rw [ih (n + 1) (fun x hx => h x (by simp [hx]))]
    congr 1
    simp
    omega

/-- Skipping a run of non-terminal statuses just counts polls. -/
theorem amazonPollLoop_skip :
    ∀ (leading : List String) (n : Nat) (rest : List String),
      (∀ s ∈ leading, s ≠ "COMPLETED" ∧ s ≠ "FAILED") →
      amazonPollLoop (leading ++ rest) n = amazonPollLoop rest (n + leading.length) := by
  intro leading
  induction leading with
  | nil => intro n rest _; simp
  | cons s tail ih =>
    intro n rest h
    obtain ⟨h1, h2⟩ := h s (by simp)
    simp only [List.cons_append, amazonPollLoop]
    rw [if_neg (by simp [h1, h2])]
    rw [List.append_eq_has_append, ih (n + 1) rest (fun x hx => h x (by simp [hx]))]
    congr 1
    simp
    omega

/-- C7 counterexample: the polling loop's total wait is not bounded by any
maximum number of polls — for every candidate bound there is a status trace
on which the loop polls more often — and an unexpected terminal state such
as `DELETED` does not stop the loop (it polls again instead of raising a
permanent error). -/
theorem polling_unbounded_counterexample :
    (¬ ∃ N, ∀ statuses, pollsUsed statuses ≤ N) ∧
    amazonPollLoop ["DELETED"] 0 = .stillPolling 1 := by
  constructor
  · rintro ⟨N, hN⟩
    have hval : pollsUsed (List.replicate (N + 1) "IN_PROGRESS") = N + 1 := by
      have hloop := amazonPollLoop_no_terminal (List.replicate (N + 1) "IN_PROGRESS") 0
        (fun s hs => by
          have hs2 := List.eq_of_mem_replicate hs
          subst hs2
          exact ⟨by decide, by decide⟩)
      simp [pollsUsed, hloop]
    have := hN (List.replicate (N + 1) "IN_PROGRESS")
    omega
  · decide

/-- C7 amended: the loop stops exactly on an explicit `COMPLETED` or
`FAILED` status — the first terminal response at position `k` stops it
after `k + 1` polls (`FAILED` raising an unclassified error) — while any
other status sequence, expected or not, leaves it polling with no bound. -/
theorem polling_terminates_only_on_terminal_status
    (leading rest : List String)
    (h : ∀ s ∈ leading, s ≠ "COMPLETED" ∧ s ≠ "FAILED") :
    amazonPollLoop (leading ++ "COMPLETED" :: rest) 0 =
        .completed (leading.length + 1) ∧
    amazonPollLoop (leading ++ "FAILED" :: rest) 0 =
        .failed (leading.length + 1) ∧
    amazonPollLoop leading 0 = .stillPolling leading.length := by
  refine ⟨?_, ?_, ?_⟩
  · rw [amazonPollLoop_skip leading 0 _ h]
    simp [amazonPollLoop]
  · rw [amazonPollLoop_skip leading 0 _ h]
    simp [amazonPollLoop]
  · have := amazonPollLoop_no_terminal leading 0 h
    simpa using this

/-- Witness for the amended C7 at a concrete trace with one in-progress
response. -/
theorem polling_terminates_only_on_terminal_status_witness :
    amazonPollLoop ["IN_PROGRESS", "COMPLETED"] 0 = .completed 2 ∧
    amazonPollLoop ["IN_PROGRESS", "FAILED"] 0 = .failed 2 ∧
    amazonPollLoop ["IN_PROGRESS"] 0 = .stillPolling 1 := by
  have h := polling_terminates_only_on_terminal_status ["IN_PROGRESS"] []
    (by decide)
  exact ⟨h.1, h.2.1, h.2.2⟩

/-- The services stored by the transcription loop are exactly the services
whose transcription succeeded, in configuration order. -/
theorem transcribeLoop_keys (transcribe : TranscriptionServiceType → Except Unit (List Timestamp)) :
    ∀ services, (transcribeLoop transcribe services).map Prod.fst =
      services.filter (fun s => (transcribe s).isOk) := by
  intro services
  induction services with
  | nil => rfl
  | cons s rest ih =>
    cases h : transcribe s with
    | ok ts => simp [transcribeLoop, h, List.filter_cons, Except.isOk, Except.toBool, ih]
    | error e => simp [transcribeLoop, h, List.filter_cons, Except.isOk, Except.toBool, ih]

/-- Transcript files are never analysis artifacts. -/
theorem transcriptArtifacts_no_analysis
    (T : List (TranscriptionServiceType × List Timestamp)) :
    ((T.flatMap
        (fun st => [Artifact.transcriptionJson st.1, Artifact.transcriptionRaw st.1])).filter
      Artifact.isAnalysis) = [] := by
  induction T with
  | nil => rfl
  | cons st rest ih => simp [List.flatMap_cons, List.filter_append, ih, Artifact.isAnalysis]

/-- Every file the per-transcription analysis block saves is an analysis
artifact. -/
theorem analyzeEntry_all_analysis
    (analyze : AIProvider → List Timestamp → Bool → Except Unit String)
    (vpIncludeImages : Bool) (s : TranscriptionServiceType) (ts : List Timestamp) :
    (analyzeEntry analyze vpIncludeImages s ts).filter Artifact.isAnalysis =
      analyzeEntry analyze vpIncludeImages s ts := by
  unfold analyzeEntry
  cases analyze .openai ts vpIncludeImages <;>
    cases analyze .anthropic ts vpIncludeImages <;>
    cases analyze .gemini ts vpIncludeImages <;>
    simp [Artifact.isAnalysis]

/-- Every file the analysis stage saves is an analysis artifact. -/
theorem analysisLoop_all_analysis
    (analyze : AIProvider → List Timestamp → Bool → Except Unit String)
    (vpIncludeImages : Bool) :
    ∀ entries, (analysisLoop analyze vpIncludeImages entries).filter Artifact.isAnalysis =
      analysisLoop analyze vpIncludeImages entries := by
  intro entries
  induction entries with
  | nil => rfl
  | cons st rest ih =>
    simp only [analysisLoop, List.filter_append, ih, analyzeEntry_all_analysis]

/-- When every analysis call succeeds, the analysis stage saves, for every
stored transcription in order, one artifact per analysis provider. -/
theorem analysisLoop_all_ok
    (analyze : AIProvider → List Timestamp → Bool → Except Unit String)
    (vpIncludeImages : Bool)
    (hana : ∀ a ts b, (analyze a ts b).isOk = true) :
    ∀ entries, analysisLoop analyze vpIncludeImages entries =
      (entries.map Prod.fst).flatMap
        (fun s => [AIProvider.openai, AIProvider.anthropic, AIProvider.gemini].map
          (fun a => Artifact.analysis a (serviceShortName s))) := by
  intro entries
  induction entries with
  | nil => rfl
  | cons st rest ih =>
    obtain ⟨vo, ho⟩ : ∃ v, analyze .openai st.2 vpIncludeImages = .ok v := by
      cases h : analyze .openai st.2 vpIncludeImages with
      | ok v => exact ⟨v, rfl⟩
      | error e => have := hana .openai st.2 vpIncludeImages; rw [h] at this; simp [Except.isOk, Except.toBool] at this
    obtain ⟨va, ha⟩ : ∃ v, analyze .anthropic st.2 vpIncludeImages = .ok v := by
      cases h : analyze .anthropic st.2 vpIncludeImages with
      | ok v => exact ⟨v, rfl⟩
      | error e => have := hana .anthropic st.2 vpIncludeImages; rw [h] at this; simp [Except.isOk, Except.toBool] at this
    obtain ⟨vg, hg⟩ : ∃ v, analyze .gemini st.2 vpIncludeImages = .ok v := by
      cases h : analyze .gemini st.2 vpIncludeImages with
      | ok v => exact ⟨v, rfl⟩
      | error e => have := hana .gemini st.2 vpIncludeImages; rw [h] at this; simp [Except.isOk, Except.toBool] at this
    simp [analysisLoop, analyzeEntry, ho, ha, hg, ih]

/-- C1: in a run whose analysis stage executes (audio and frames extracted,
not image mode, not transcription-only) and whose analysis calls succeed,
the analysis artifacts produced are exactly the Cartesian product of the
successful transcription services (in configuration order) with the three
configured analysis providers; a transcription service that failed
contributes no artifact. -/
theorem analysis_matrix_cartesian_product
    (transcribe : TranscriptionServiceType → Except Unit (List Timestamp))
    (analyze : AIProvider → List Timestamp → Bool → Except Unit String)
    (services : List TranscriptionServiceType) (vpIncludeImages : Bool)
    (hana : ∀ a ts b, (analyze a ts b).isOk = true) :
    ((processMatrix (.ok ()) (.ok ()) transcribe analyze services false false
        vpIncludeImages).artifacts.filter Artifact.isAnalysis) =
      (services.filter (fun s => (transcribe s).isOk)).flatMap
        (fun s => [AIProvider.openai, AIProvider.anthropic, AIProvider.gemini].map
          (fun a => Artifact.analysis a (serviceShortName s))) := by
  by_cases hT : (transcribeLoop transcribe services).isEmpty
  · have hTnil : transcribeLoop transcribe services = [] := by
      cases h : transcribeLoop transcribe services with
      | nil => rfl
      | cons a l => rw [h] at hT; simp at hT
    have hfilter : services.filter (fun s => (transcribe s).isOk) = [] := by
      rw [← transcribeLoop_keys, hTnil]
      rfl
    simp [processMatrix, hT, hTnil, hfilter]
  · simp only [processMatrix, hT, Bool.false_eq_true, if_false, if_true]
    rw [List.filter_append, transcriptArtifacts_no_analysis, List.nil_append]
    rw [analysisLoop_all_analysis, analysisLoop_all_ok analyze vpIncludeImages hana]
    rw [transcribeLoop_keys]

/-- Witness for C1: with `gemini` succeeding and `amazon` failing, the
analysis artifacts are exactly the three provider artifacts for the one
successful service. -/
theorem analysis_matrix_cartesian_product_witness :
    ((processMatrix (.ok ()) (.ok ()) witnessTranscribe witnessAnalyze
        [TranscriptionServiceType.gemini, TranscriptionServiceType.amazon] false false
        false).artifacts.filter Artifact.isAnalysis) =
      (([TranscriptionServiceType.gemini, TranscriptionServiceType.amazon].filter
          (fun s => (witnessTranscribe s).isOk)).flatMap
        (fun s => [AIProvider.openai, AIProvider.anthropic, AIProvider.gemini].map
          (fun a => Artifact.analysis a (serviceShortName s)))) :=
  analysis_matrix_cartesian_product witnessTranscribe witnessAnalyze
    [TranscriptionServiceType.gemini, TranscriptionServiceType.amazon] false
    (fun _ _ _ => rfl)

/-- C2: if every configured transcription service fails, `processMatrix`
aborts that video's run with the all-failed error; if at least one
succeeds, the run proceeds (returns without error) with the stored mapping
keyed by exactly the successful services; and the batch loop of `main`
processes every video regardless of individual failures. -/
theorem transcription_stage_failure_policy
    (transcribe : TranscriptionServiceType → Except Unit (List Timestamp))
    (analyze : AIProvider → List Timestamp → Bool → Except Unit String)
    (services : List TranscriptionServiceType)
    (onlyTranscribe vpIncludeImages : Bool)
    (videos : List String) (runOne : String → Except MatrixError Unit) :
    ((∀ s ∈ services, (transcribe s).isOk = false) →
      (processMatrix (.ok ()) (.ok ()) transcribe analyze services onlyTranscribe false
          vpIncludeImages).outcome = .error .allTranscriptionFailed)
    ∧ ((∃ s ∈ services, (transcribe s).isOk = true) →
      (processMatrix (.ok ()) (.ok ()) transcribe analyze services onlyTranscribe false
          vpIncludeImages).outcome = .ok () ∧
      (transcribeLoop transcribe services).map Prod.fst =
        services.filter (fun s => (transcribe s).isOk))
    ∧ (processVideos runOne videos).map Prod.fst = videos := by
  refine ⟨?_, ?_, ?_⟩
  · intro hfail
    have hfilter : services.filter (fun s => (transcribe s).isOk) = [] := by
      rw [List.filter_eq_nil_iff]
      intro s hs
      simp [hfail s hs]
    have hTnil : transcribeLoop transcribe services = [] := by
      have hkeys := transcribeLoop_keys transcribe services
      rw [hfilter] at hkeys
      exact List.map_eq_nil_iff.mp hkeys
    simp [processMatrix, hTnil]
  · intro hsucc
    obtain ⟨s, hs, hok⟩ := hsucc
    have hTne : (transcribeLoop transcribe services).isEmpty = false := by
      cases hTval : transcribeLoop transcribe services with
      | cons a l => rfl
      | nil =>
        have hkeys := transcribeLoop_keys transcribe services
        rw [hTval] at hkeys
        have : s ∈ services.filter (fun s => (transcribe s).isOk) :=
          List.mem_filter.mpr ⟨hs, hok⟩
        rw [← hkeys] at this
        simp at this
    constructor
    · cases honly : onlyTranscribe <;> simp [processMatrix, hTne]
    · exact transcribeLoop_keys transcribe services
  · induction videos with
    | nil => rfl
    | cons v rest ih => simp [processVideos, ih]

/-- Witness for C2: with every service failing the run aborts; with `gemini`
succeeding it completes and stores exactly the successful service; a
two-video batch is processed end to end. -/
theorem transcription_stage_failure_policy_witness :
    (processMatrix (.ok ()) (.ok ()) (fun _ => .error ()) witnessAnalyze
        [TranscriptionServiceType.gemini] true false false).outcome =
      .error .allTranscriptionFailed ∧
    (processMatrix (.ok ()) (.ok ()) witnessTranscribe witnessAnalyze
        [TranscriptionServiceType.gemini, TranscriptionServiceType.amazon] true false
        false).outcome = .ok () ∧
    (processVideos (fun _ => .error .audioFailed) ["a.mp4", "b.mp4"]).map Prod.fst =
      ["a.mp4", "b.mp4"] := by
  refine ⟨?_, ?_, ?_⟩
  · exact (transcription_stage_failure_policy (fun _ => .error ()) witnessAnalyze
      [TranscriptionServiceType.gemini] true false [] (fun _ => .ok ())).1
      (by intro s _; rfl)
  · exact ((transcription_stage_failure_policy witnessTranscribe witnessAnalyze
      [TranscriptionServiceType.gemini, TranscriptionServiceType.amazon] true false []
      (fun _ => .ok ())).2.1
      ⟨TranscriptionServiceType.gemini, by decide, rfl⟩).1
  · exact (transcription_stage_failure_policy witnessTranscribe witnessAnalyze [] true false
      ["a.mp4", "b.mp4"] (fun _ => .error .audioFailed)).2.2

/-- C10: with its `includeImages` parameter set (and audio extraction
succeeding), `processMatrix` returns right after audio extraction without
an error: no transcription service is attempted and no artifact — transcript
or analysis — is saved, whatever the other inputs are. -/
theorem processMatrix_includeImages_early_return
    (framesResult : Except Unit Unit)
    (transcribe : TranscriptionServiceType → Except Unit (List Timestamp))
    (analyze : AIProvider → List Timestamp → Bool → Except Unit String)
    (services : List TranscriptionServiceType)
    (onlyTranscribe vpIncludeImages : Bool) :
    processMatrix (.ok ()) framesResult transcribe analyze services onlyTranscribe true
      vpIncludeImages = ⟨[], [], .ok ()⟩ := rfl

/-- C8: with `includeImages = false`, none of the three analysis adapters
reads any frame file, and the request each builds is identical for any two
frame lists. -/
theorem analysis_no_frame_reads_without_images (readFile : String → String)
    (transcriptJson : String) (frames frames2 : List String) :
    ((analyzeWithOpenAIRequest readFile transcriptJson frames false).framesRead = [] ∧
      analyzeWithOpenAIRequest readFile transcriptJson frames false =
        analyzeWithOpenAIRequest readFile transcriptJson frames2 false) ∧
    ((analyzeWithAnthropicRequest readFile transcriptJson frames false).framesRead = [] ∧
      analyzeWithAnthropicRequest readFile transcriptJson frames false =
        analyzeWithAnthropicRequest readFile transcriptJson frames2 false) ∧
    ((analyzeWithGeminiRequest readFile transcriptJson frames false).framesRead = [] ∧
      analyzeWithGeminiRequest readFile transcriptJson frames false =
        analyzeWithGeminiRequest readFile transcriptJson frames2 false) :=
  ⟨⟨rfl, rfl⟩, ⟨rfl, rfl⟩, ⟨rfl, rfl⟩⟩

/-- For C9: the parser returns the same constant options for every argument
list — `includeImages` can never become true and `onlyTranscribe` can never
become false, although the README documents `npm start` (no flags) as
processing with images and running the analysis stage. -/
theorem parseCommandLineArgs_constant :
    parseCommandLineArgs [] = ⟨false, true⟩ ∧
    ∀ args, parseCommandLineArgs args = ⟨false, true⟩ := by
  have hfold : ∀ (args : List String) (o : CliOptions),
      o.images = false → o.onlyTranscribe = true →
      args.foldl parseArgStep o = ⟨true, false⟩ := by
    intro args
    induction args with
    | nil =>
      intro o h1 h2
      cases o with
      | mk ot im =>
        simp only at h1 h2
        subst h1
        subst h2
        rfl
    | cons a rest ih =>
      intro o h1 h2
      rw [List.foldl_cons]
      by_cases ha : a = "no-images"
      · rw [show parseArgStep o a = { o with images := false } from by
          simp [parseArgStep, ha]]
        exact ih _ rfl h2
      · by_cases hb : a = "only-transcribe"
        · rw [show parseArgStep o a = { o with onlyTranscribe := true } from by
            simp [parseArgStep, ha, hb]]
          exact ih _ h1 rfl
        · rw [show parseArgStep o a = o from by simp [parseArgStep, ha, hb]]
          exact ih o h1 h2
  refine ⟨rfl, ?_⟩
  intro args
  show ProcessingOptions.mk (args.foldl parseArgStep ⟨true, false⟩).images
      (args.foldl parseArgStep ⟨true, false⟩).onlyTranscribe = ⟨false, true⟩
  rw [hfold args ⟨true, false⟩ rfl rfl]
